import Mathlib

/-!
Shallow embedding of the keypool package (src/python/keypool/__init__.py).

The package is Python 2 code (the tests use xrange and print statements), so
the embedding follows Python 2 semantics where they matter:
* the class attribute Keypool.infinity is the string sentinel 'infinity', and
  in Python 2 every int compares less than every str, so for an integer key
  the tests key > 'infinity' and key == 'infinity' are always False, while
  key <= 'infinity' is always True;
* range bounds are modelled by UB: the lower bound of every stored range is a
  finite integer, the upper bound is either a finite integer or the sentinel.

Randomness: random.randint(0, len(free) - 1) is modelled by an adversarially
chosen seed reduced modulo the list length, which ranges over exactly the same
set of pivots; theorems quantify over the seed.
-/

/-- Upper bound of a free range: a finite integer or the string sentinel
'infinity' kept in the last range. -/
inductive UB where
  | fin : Int → UB
  | inf : UB
deriving DecidableEq, Repr

/-- A free range [lo, hi]: the Python list [lo, hi] where lo is always an int. -/
abbrev KRange := Int × UB

/-- Default used by getD for out-of-range indexing; Python would raise
IndexError there, and every reachable access is in range. -/
def dfltR : KRange := (0, UB.inf)

/-- Python 2 test key == hi for an int key: int == 'infinity' is False. -/
def intEqUB (k : Int) : UB → Bool
  | UB.fin m => k == m
  | UB.inf => false

/-- Python 2 test hi == k for an int k: 'infinity' == int is False. -/
def ubEqInt (u : UB) (k : Int) : Bool :=
  match u with
  | UB.fin m => m == k
  | UB.inf => false

/-- Python 2 test key > hi: an int never compares greater than the string
sentinel, so key > 'infinity' is False. -/
def ubLtKey (u : UB) (k : Int) : Bool :=
  match u with
  | UB.fin m => m < k
  | UB.inf => false

/-- Python 2 test key <= hi: every int compares below the string sentinel. -/
def keyLeUB (k : Int) (u : UB) : Bool :=
  match u with
  | UB.fin m => k ≤ m
  | UB.inf => true

/-- Models self._free[i][1] + 1.  It is only ever evaluated on the freshly
inserted range [key, key], whose upper bound is finite; on the sentinel
Python 2 would raise a TypeError ('infinity' + 1), which is unreachable. -/
def ubSucc : UB → UB
  | UB.fin m => UB.fin (m + 1)
  | UB.inf => UB.inf

/-- Python 2 test key > Keypool.infinity for an int key: always False. -/
def intGtInf (_k : Int) : Bool := false

/-- The Keypool state: self._start and self._free. -/
structure Keypool where
  start : Int
  free : List KRange
deriving DecidableEq, Repr

/-- Keypool.__init__(start): free list is the single range [start, infinity]. -/
def Keypool.ofStart (start : Int) : Keypool :=
  ⟨start, [(start, UB.inf)]⟩

/-- Keypool.next(): pop the low end of the first free range.  Python raises
IndexError on an empty free list (unreachable under the invariant), modelled
by none. -/
def Keypool.next (st : Keypool) : Option (Int × Keypool) :=
  match st.free with
  | [] => none
  | (lo, hi) :: rest =>
    if intEqUB lo hi then some (lo, ⟨st.start, rest⟩)
    else some (lo, ⟨st.start, (lo + 1, hi) :: rest⟩)

/-- The inner predicate is_used(i, key) of Keypool._find: the key lies in the
used gap bracketing free range i. -/
def is_used (free : List KRange) (i : Nat) (key : Int) : Bool :=
  if i == 0 then decide (key < (free.getD 0 dfltR).1)
  else ubLtKey (free.getD (i - 1) dfltR).2 key && decide (key < (free.getD i dfltR).1)

/-- Numerator of a rational approximation of e, accurate to the precision of
the IEEE double used by math.log. -/
def eNum : Nat := 2718281828459045

/-- Denominator of the rational approximation of e. -/
def eDen : Nat := 10 ^ 15

/-- Floor of math.log(n), the natural logarithm computed on IEEE doubles,
via the rational approximation of e: the largest k with e^k <= n. -/
def natLnFloor (n : Nat) : Nat :=
  ((List.range (n + 1)).filter (fun k => eNum ^ k ≤ n * eDen ^ k)).length - 1

/-- Number of iterations of the _find probe loop: while d <= math.log(n) + 1
runs for d = 0 .. floor(log n) + 1, i.e. floor(log n) + 2 iterations. -/
def findSteps (n : Nat) : Nat := natLnFloor n + 2

/-- The probe loop of Keypool._find, fuelled by the iteration budget.
int(p/2.0) and int((len-p)/2.0) are floor divisions on the nonnegative p. -/
def findLoop (free : List KRange) (key : Int) (p : Nat) : Nat → Option Nat
  | 0 => none
  | fuel + 1 =>
    let lo := (free.getD p dfltR).1
    let hi := (free.getD p dfltR).2
    if is_used free p key then some p
    else if key < lo then findLoop free key (p / 2) fuel
    else if ubLtKey hi key then findLoop free key (p + (free.length - p) / 2) fuel
    else findLoop free key p fuel

/-- Errors raised by Keypool._find: ValueError for an invalid key, KeyError
for a key that is not in use. -/
inductive FindErr where
  | invalidKey : FindErr
  | keyNotInUse : FindErr
deriving DecidableEq, Repr

/-- Keypool._find(key): validity check, then the randomized probe loop from
pivot randint(0, len(free)-1), modelled as seed % len(free). -/
def Keypool.find (st : Keypool) (key : Int) (seed : Nat) : Except FindErr Nat :=
  if decide (key < st.start) || intGtInf key then Except.error FindErr.invalidKey
  else
    match findLoop st.free key (seed % st.free.length) (findSteps st.free.length) with
    | some i => Except.ok i
    | none => Except.error FindErr.keyNotInUse

/-- First merge block of Keypool.__delitem__: if the range after i starts at
free[i][1] + 1, extend it downward and drop range i. -/
def mergeNext (f1 : List KRange) (i : Nat) : List KRange :=
  if decide (i < f1.length - 1) &&
     intEqUB (f1.getD (i + 1) dfltR).1 (ubSucc (f1.getD i dfltR).2)
  then (f1.set (i + 1) ((f1.getD i dfltR).1, (f1.getD (i + 1) dfltR).2)).eraseIdx i
  else f1

/-- Second merge block of Keypool.__delitem__: if the range before i ends at
free[i][0] - 1, extend it upward and drop range i. -/
def mergePrev (f2 : List KRange) (i : Nat) : List KRange :=
  if decide (0 < i) && ubEqInt (f2.getD (i - 1) dfltR).2 ((f2.getD i dfltR).1 - 1)
  then (f2.set (i - 1) ((f2.getD (i - 1) dfltR).1, (f2.getD i dfltR).2)).eraseIdx i
  else f2

/-- The mutation performed by Keypool.__delitem__ after _find returned i:
insert [key, key] at i, then merge with the following and preceding ranges
when they are adjacent. -/
def delMerge (free : List KRange) (key : Int) (i : Nat) : List KRange :=
  mergePrev (mergeNext (free.insertIdx i (key, UB.fin key)) i) i

/-- Keypool.__delitem__(key) (= release/remove): the exception from _find is
raised before any mutation, so on error the state is returned unchanged. -/
def Keypool.releaseRun (st : Keypool) (key : Int) (seed : Nat) :
    Except FindErr Unit × Keypool :=
  match st.find key seed with
  | Except.error e => (Except.error e, st)
  | Except.ok i => (Except.ok (), ⟨st.start, delMerge st.free key i⟩)

/-- Membership of a key in the free list: key lies in some free range.
This is the semantic notion of a currently-unused key. -/
def isFree (free : List KRange) (key : Int) : Bool :=
  free.any (fun r => decide (r.1 ≤ key) && keyLeUB key r.2)

/-- The free-list invariant below the bound b: the list is nonempty, lower
bounds are at least b, each non-final range is [lo, fin h] with lo <= h and
the next range starts at h + 2 or later (disjoint and non-adjacent), and the
final range carries the infinity sentinel. -/
def invFrom (b : Int) : List KRange → Bool
  | [] => false
  | (lo, UB.inf) :: rest => decide (b ≤ lo) && rest.isEmpty
  | (lo, UB.fin h) :: rest => decide (b ≤ lo) && decide (lo ≤ h) && invFrom (h + 2) rest

/-- The free-list invariant of a Keypool state. -/
def Keypool.Inv (st : Keypool) : Prop := invFrom st.start st.free = true

/-- An allocate or release step; the seed models the random pivot choice. -/
inductive Op where
  | alloc : Op
  | release : Int → Nat → Op

/-- One operation on the state.  A release whose _find raises leaves the
state unchanged; alloc on an empty free list (unreachable under the
invariant, IndexError in Python) leaves the state unchanged. -/
def Keypool.step (st : Keypool) (op : Op) : Keypool :=
  match op with
  | Op.alloc =>
    match st.next with
    | some (_, st2) => st2
    | none => st
  | Op.release k s => (st.releaseRun k s).2

/-- Run a sequence of operations. -/
def Keypool.run (st : Keypool) : List Op → Keypool
  | [] => st
  | op :: ops => (st.step op).run ops

/-- The list of keys returned by n successive allocate() calls. -/
def allocs (st : Keypool) : Nat → List Int
  | 0 => []
  | n + 1 =>
    match st.next with
    | none => []
    | some (k, st2) => k :: allocs st2 n

/-- State of a DeferredKey: the cached value self._key (None until resolved),
the identity of the weakly referenced pool (weakref proxies compare by the
referent, and Keypool has no custom equality, so identity), and the
self._autodel flag. -/
structure DeferredKey where
  key : Option Int
  poolId : Nat
  autodel : Bool
deriving DecidableEq, Repr

/-- DeferredKey.__eq__: reads the cached _key attributes directly (not the
resolving key property), returns False when either side is unresolved, and
otherwise compares pool identity and cached values.  It performs no call
into the pool, so it is a pure function of the two handle states. -/
def DeferredKey.eq (a b : DeferredKey) : Bool :=
  match a.key, b.key with
  | some x, some y => a.poolId == b.poolId && x == y
  | _, _ => false

/-- Method-call form of DeferredKey.__eq__ making the frame explicit: the
visible state (both handles and the pool) is returned unchanged because the
method body touches neither the key property nor the pool. -/
def DeferredKey.eqRun (a b : DeferredKey) (pool : Keypool) :
    Bool × DeferredKey × DeferredKey × Keypool :=
  (DeferredKey.eq a b, a, b, pool)

/-- A key stored in the KeypoolDict mapping: an int (possibly obtained from
the pool) or any other hashable object, modelled by a string. -/
inductive EKey where
  | intKey : Int → EKey
  | strKey : String → EKey
deriving DecidableEq, Repr

/-- An argument passed to KeypoolDict.__delitem__: a DeferredKey with its
cached value, or a plain key. -/
inductive DictArg where
  | handle : Option Int → DictArg
  | plain : EKey → DictArg
deriving DecidableEq, Repr

/-- Outcome of KeypoolDict.__delitem__: normal return, a propagated error
from the pool release, the dict KeyError from super().__delitem__ when the
key is absent, or the IndexError from resolving against an empty free list
(unreachable when the invariant holds). -/
inductive DelOutcome where
  | ok : DelOutcome
  | err : FindErr → DelOutcome
  | errMissing : DelOutcome
  | errEmptyPool : DelOutcome
deriving DecidableEq, Repr

/-- KeypoolDict.__delitem__(key) on the state (entries, pool): resolve a
DeferredKey argument through its key property (allocating when unresolved);
if the resolved key is an int, release it via del self._pool[key], whose
exception propagates and aborts the method before the mapping is touched;
finally super().__delitem__(key) removes the entry, raising KeyError when it
is absent. -/
def dictDelitem (entries : List EKey) (pool : Keypool) (arg : DictArg)
    (seed : Nat) : DelOutcome × List EKey × Keypool :=
  match
    (match arg with
     | DictArg.handle (some n) => some (EKey.intKey n, pool)
     | DictArg.handle none =>
       match pool.next with
       | some (n, pool2) => some (EKey.intKey n, pool2)
       | none => none
     | DictArg.plain k => some (k, pool)) with
  | none => (DelOutcome.errEmptyPool, entries, pool)
  | some (k, pool1) =>
    match
      (match k with
       | EKey.intKey n => pool1.releaseRun n seed
       | EKey.strKey _ => (Except.ok (), pool1)) with
    | (Except.error e, pool2) => (DelOutcome.err e, entries, pool2)
    | (Except.ok _, pool2) =>
      if k ∈ entries then (DelOutcome.ok, entries.erase k, pool2)
      else (DelOutcome.errMissing, entries, pool2)

theorem invFrom_mono : ∀ {l : List KRange} {b c : Int},
    invFrom b l = true → c ≤ b → invFrom c l = true
  | [], b, c, h, _ => by simp [invFrom] at h
  | (lo, UB.inf) :: rest, b, c, h, hcb => by
    simp only [invFrom, Bool.and_eq_true, decide_eq_true_eq] at h ⊢
    exact ⟨le_trans hcb h.1, h.2⟩
  | (lo, UB.fin hh) :: rest, b, c, h, hcb => by
    simp only [invFrom, Bool.and_eq_true, decide_eq_true_eq] at h ⊢
    exact ⟨⟨le_trans hcb h.1.1, h.1.2⟩, h.2⟩

theorem isFree_eq_false_of_lt : ∀ {l : List KRange} {b k : Int},
    invFrom b l = true → k < b → isFree l k = false
  | [], b, k, _, _ => rfl
  | (lo, UB.inf) :: rest, b, k, h, hk => by
    simp only [invFrom, Bool.and_eq_true, decide_eq_true_eq, List.isEmpty_iff] at h
    simp only [isFree, List.any_cons, Bool.or_eq_false_iff, Bool.and_eq_false_iff]
    refine ⟨Or.inl ?_, ?_⟩
    · simp only [decide_eq_false_iff_not, not_le]; exact lt_of_lt_of_le hk h.1
    · rw [h.2]; rfl
  | (lo, UB.fin hh) :: rest, b, k, h, hk => by
    simp only [invFrom, Bool.and_eq_true, decide_eq_true_eq] at h
    simp only [isFree, List.any_cons, Bool.or_eq_false_iff, Bool.and_eq_false_iff]
    constructor
    · left; simp only [decide_eq_false_iff_not, not_le]
      exact lt_of_lt_of_le hk h.1.1
    · have : k < hh + 2 := by omega
      exact isFree_eq_false_of_lt h.2 this

theorem isFree_eq_false_of_lt_head {lo : Int} {hi : UB} {rest : List KRange}
    {b k : Int} (h : invFrom b ((lo, hi) :: rest) = true) (hk : k < lo) :
    isFree ((lo, hi) :: rest) k = false := by
  cases hi with
  | inf =>
    simp only [invFrom, Bool.and_eq_true, decide_eq_true_eq, List.isEmpty_iff] at h
    simp only [isFree, List.any_cons, Bool.or_eq_false_iff, Bool.and_eq_false_iff]
    refine ⟨Or.inl ?_, ?_⟩
    · simp only [decide_eq_false_iff_not, not_le]; exact hk
    · rw [h.2]; rfl
  | fin hh =>
    simp only [invFrom, Bool.and_eq_true, decide_eq_true_eq] at h
    simp only [isFree, List.any_cons, Bool.or_eq_false_iff, Bool.and_eq_false_iff]
    constructor
    · left; simp only [decide_eq_false_iff_not, not_le]; exact hk
    · have : k < hh + 2 := by omega
      exact isFree_eq_false_of_lt h.2 this

theorem invFrom_of_le_head {lo : Int} {hi : UB} {rest : List KRange} {b c : Int}
    (h : invFrom b ((lo, hi) :: rest) = true) (hc : c ≤ lo) :
    invFrom c ((lo, hi) :: rest) = true := by
  cases hi with
  | inf =>
    simp only [invFrom, Bool.and_eq_true, decide_eq_true_eq] at h ⊢
    exact ⟨hc, h.2⟩
  | fin hh =>
    simp only [invFrom, Bool.and_eq_true, decide_eq_true_eq] at h ⊢
    exact ⟨⟨hc, h.1.2⟩, h.2⟩

theorem ubLtKey_bound : ∀ {l : List KRange} {b k : Int} {j : Nat},
    invFrom b l = true → ubLtKey (l.getD j dfltR).2 k = true → b < k
  | [], b, k, j, h, _ => by simp [invFrom] at h
  | (lo, UB.inf) :: rest, b, k, j, h, hu => by
    simp only [invFrom, Bool.and_eq_true, decide_eq_true_eq, List.isEmpty_iff] at h
    cases j with
    | zero => simp [List.getD_cons_zero, ubLtKey] at hu
    | succ n =>
      rw [List.getD_cons_succ, h.2] at hu
      simp [List.getD, ubLtKey, dfltR] at hu
  | (lo, UB.fin hh) :: rest, b, k, j, h, hu => by
    simp only [invFrom, Bool.and_eq_true, decide_eq_true_eq] at h
    cases j with
    | zero =>
      rw [List.getD_cons_zero] at hu
      simp only [ubLtKey, decide_eq_true_eq] at hu
      omega
    | succ n =>
      rw [List.getD_cons_succ] at hu
      have := ubLtKey_bound h.2 hu
      omega

theorem fin_not_last : ∀ {l : List KRange} {b : Int} {j : Nat} {h : Int},
    invFrom b l = true → (l.getD j dfltR).2 = UB.fin h → j + 1 < l.length
  | [], b, j, h, hinv, _ => by simp [invFrom] at hinv
  | (lo, UB.inf) :: rest, b, j, h, hinv, hfin => by
    simp only [invFrom, Bool.and_eq_true, decide_eq_true_eq, List.isEmpty_iff] at hinv
    cases j with
    | zero => rw [List.getD_cons_zero] at hfin; exact absurd hfin (by simp)
    | succ n =>
      rw [List.getD_cons_succ, hinv.2] at hfin
      exact absurd hfin (by simp [List.getD, dfltR])
  | (lo, UB.fin hh) :: rest, b, j, h, hinv, hfin => by
    simp only [invFrom, Bool.and_eq_true, decide_eq_true_eq] at hinv
    cases j with
    | zero =>
      have hne : rest ≠ [] := by
        intro he; rw [he] at hinv; simp [invFrom] at hinv
      simp only [List.length_cons]
      have := List.length_pos.mpr hne
      omega
    | succ n =>
      rw [List.getD_cons_succ] at hfin
      have := fin_not_last hinv.2 hfin
      simp only [List.length_cons]
      omega

theorem ubLtKey_eq_true_iff {u : UB} {k : Int} :
    ubLtKey u k = true ↔ ∃ m, u = UB.fin m ∧ m < k := by
  cases u <;> simp [ubLtKey]

theorem is_used_zero (l : List KRange) (k : Int) :
    is_used l 0 k = decide (k < (l.getD 0 dfltR).1) := rfl

theorem is_used_succ (l : List KRange) (n : Nat) (k : Int) :
    is_used l (n + 1) k =
      (ubLtKey (l.getD n dfltR).2 k && decide (k < (l.getD (n + 1) dfltR).1)) := by
  simp [is_used]

theorem is_used_lt_length {l : List KRange} {b k : Int} {i : Nat}
    (hinv : invFrom b l = true) (hu : is_used l i k = true) : i < l.length := by
  cases i with
  | zero =>
    have hne : l ≠ [] := by
      intro he; rw [he] at hinv; simp [invFrom] at hinv
    have := List.length_pos.mpr hne
    omega
  | succ n =>
    rw [is_used_succ, Bool.and_eq_true] at hu
    obtain ⟨m, hm, _⟩ := ubLtKey_eq_true_iff.mp hu.1
    exact fin_not_last hinv hm

theorem isFree_eq_false_of_used : ∀ {l : List KRange} {b k : Int} {i : Nat},
    invFrom b l = true → is_used l i k = true → isFree l k = false
  | [], b, k, i, hinv, _ => by simp [invFrom] at hinv
  | (lo, hi) :: rest, b, k, i, hinv, hu => by
    cases i with
    | zero =>
      rw [is_used_zero, List.getD_cons_zero, decide_eq_true_eq] at hu
      exact isFree_eq_false_of_lt_head hinv hu
    | succ n =>
      rw [is_used_succ, Bool.and_eq_true, decide_eq_true_eq] at hu
      obtain ⟨hlt, hk2⟩ := hu
      cases hi with
      | inf =>
        exfalso
        simp only [invFrom, Bool.and_eq_true, decide_eq_true_eq,
          List.isEmpty_iff] at hinv
        cases n with
        | zero => rw [List.getD_cons_zero] at hlt; simp [ubLtKey] at hlt
        | succ m =>
          rw [List.getD_cons_succ, hinv.2] at hlt
          simp [List.getD, ubLtKey, dfltR] at hlt
      | fin h0 =>
        simp only [invFrom, Bool.and_eq_true, decide_eq_true_eq] at hinv
        have hh0k : h0 < k := by
          cases n with
          | zero =>
            rw [List.getD_cons_zero] at hlt
            simp only [ubLtKey, decide_eq_true_eq] at hlt
            exact hlt
          | succ m =>
            rw [List.getD_cons_succ] at hlt
            have := ubLtKey_bound hinv.2 hlt
            omega
        have htail : is_used rest n k = true := by
          cases n with
          | zero =>
            rw [is_used_zero, decide_eq_true_eq]
            rw [List.getD_cons_succ] at hk2
            exact hk2
          | succ m =>
            rw [is_used_succ, Bool.and_eq_true, decide_eq_true_eq]
            rw [List.getD_cons_succ] at hlt
            rw [List.getD_cons_succ] at hk2
            exact ⟨hlt, hk2⟩
        simp only [isFree, List.any_cons, Bool.or_eq_false_iff,
          Bool.and_eq_false_iff]
        constructor
        · right
          simp only [keyLeUB]
          simp only [decide_eq_false_iff_not, not_le]
          exact hh0k
        · exact isFree_eq_false_of_used hinv.2 htail

theorem findLoop_sound {free : List KRange} {key : Int} :
    ∀ {fuel p i : Nat}, findLoop free key p fuel = some i → is_used free i key = true := by
  intro fuel
  induction fuel with
  | zero => intro p i h; simp [findLoop] at h
  | succ n ih =>
    intro p i h
    rw [findLoop] at h
    by_cases hu : is_used free p key
    · rw [if_pos hu] at h
      cases h
      exact hu
    · rw [if_neg hu] at h
      split at h
      · exact ih h
      · split at h
        · exact ih h
        · exact ih h

theorem findLoop_none {free : List KRange} {key : Int}
    (h : ∀ j, is_used free j key = false) :
    ∀ fuel p, findLoop free key p fuel = none := by
  intro fuel
  induction fuel with
  | zero => intro p; rfl
  | succ n ih =>
    intro p
    rw [findLoop]
    rw [if_neg (by simp [h p])]
    split
    · exact ih _
    · split
      · exact ih _
      · exact ih _

theorem find_ok_sound {st : Keypool} {k : Int} {seed i : Nat}
    (h : st.find k seed = Except.ok i) :
    st.start ≤ k ∧ is_used st.free i k = true := by
  rw [Keypool.find] at h
  by_cases hv : (decide (k < st.start) || intGtInf k) = true
  · rw [if_pos hv] at h; exact absurd h (by simp)
  · rw [if_neg hv] at h
    simp only [intGtInf, Bool.or_false, decide_eq_true_eq] at hv
    refine ⟨le_of_not_lt hv, ?_⟩
    split at h
    · cases h; exact findLoop_sound (by assumption)
    · exact absurd h (by simp)

theorem find_free_err {st : Keypool} {k : Int} (seed : Nat)
    (hinv : st.Inv) (hge : st.start ≤ k) (hfree : isFree st.free k = true) :
    st.find k seed = Except.error FindErr.keyNotInUse := by
  have hall : ∀ j, is_used st.free j k = false := by
    intro j
    cases hu : is_used st.free j k
    · rfl
    · exact absurd hfree (by rw [isFree_eq_false_of_used hinv hu]; simp)
  rw [Keypool.find]
  rw [if_neg (by simp [intGtInf]; omega)]
  rw [findLoop_none hall]

theorem find_invalid {st : Keypool} {k : Int} (seed : Nat) (h : k < st.start) :
    st.find k seed = Except.error FindErr.invalidKey := by
  rw [Keypool.find, if_pos (by simp [h])]

theorem Inv_free_ne_nil {st : Keypool} (hinv : st.Inv) : st.free ≠ [] := by
  intro he
  unfold Keypool.Inv at hinv
  rw [he] at hinv
  simp [invFrom] at hinv

theorem next_eq_some {st : Keypool} {lo : Int} {hi : UB} {rest : List KRange}
    (hfree : st.free = (lo, hi) :: rest) :
    st.next = some (lo, ⟨st.start,
      if intEqUB lo hi then rest else (lo + 1, hi) :: rest⟩) := by
  simp only [Keypool.next, hfree]
  split <;> rfl

theorem next_inv {st : Keypool} {k : Int} {st2 : Keypool}
    (hinv : st.Inv) (h : st.next = some (k, st2)) : st2.Inv := by
  unfold Keypool.Inv at hinv ⊢
  match hfree : st.free with
  | [] => rw [Keypool.next, hfree] at h; exact absurd h (by simp)
  | (lo, UB.inf) :: rest =>
    rw [hfree] at hinv
    rw [Keypool.next, hfree] at h
    simp only [intEqUB, if_false, Option.some.injEq, Prod.mk.injEq] at h
    obtain ⟨rfl, rfl⟩ := h
    simp only [invFrom, Bool.and_eq_true, decide_eq_true_eq, List.isEmpty_iff] at hinv ⊢
    exact ⟨by omega, hinv.2⟩
  | (lo, UB.fin hh) :: rest =>
    rw [hfree] at hinv
    simp only [Keypool.next, hfree] at h
    simp only [invFrom, Bool.and_eq_true, decide_eq_true_eq] at hinv
    by_cases heq : lo = hh
    · rw [if_pos (by simp [intEqUB, heq])] at h
      simp only [Option.some.injEq, Prod.mk.injEq] at h
      obtain ⟨rfl, rfl⟩ := h
      exact invFrom_mono hinv.2 (show st.start ≤ hh + 2 by omega)
    · rw [if_neg (by simp [intEqUB, heq])] at h
      simp only [Option.some.injEq, Prod.mk.injEq] at h
      obtain ⟨rfl, rfl⟩ := h
      simp only [invFrom, Bool.and_eq_true, decide_eq_true_eq]
      refine ⟨⟨by omega, by omega⟩, hinv.2⟩

theorem isFree_ge : ∀ {l : List KRange} {b m : Int},
    invFrom b l = true → isFree l m = true → b ≤ m
  | [], b, m, _, hf => by simp [isFree] at hf
  | (lo, UB.inf) :: rest, b, m, hinv, hf => by
    simp only [invFrom, Bool.and_eq_true, decide_eq_true_eq, List.isEmpty_iff] at hinv
    simp only [isFree, List.any_cons, Bool.or_eq_true, Bool.and_eq_true,
      decide_eq_true_eq] at hf
    rcases hf with ⟨h1, _⟩ | h2
    · omega
    · rw [hinv.2] at h2; simp at h2
  | (lo, UB.fin hh) :: rest, b, m, hinv, hf => by
    simp only [invFrom, Bool.and_eq_true, decide_eq_true_eq] at hinv
    simp only [isFree, List.any_cons, Bool.or_eq_true, Bool.and_eq_true,
      decide_eq_true_eq] at hf
    rcases hf with ⟨h1, _⟩ | h2
    · omega
    · have := isFree_ge hinv.2 (by simpa [isFree] using h2)
      omega

theorem mergeNext_cons (a : KRange) (t : List KRange) (j : Nat) :
    mergeNext (a :: t) (j + 1) = a :: mergeNext t j := by
  have hlen : decide (j + 1 < (a :: t).length - 1) = decide (j < t.length - 1) := by
    rw [decide_eq_decide]
    simp only [List.length_cons]
    omega
  simp only [mergeNext, List.getD_cons_succ, hlen]
  split
  · rw [List.set_cons_succ, List.eraseIdx_cons_succ]
  · rfl

theorem mergePrev_cons (a : KRange) (t : List KRange) (jj : Nat) :
    mergePrev (a :: t) (jj + 1 + 1) = a :: mergePrev t (jj + 1) := by
  have h1 : decide (0 < jj + 1 + 1) = true := by simp
  have h2 : decide (0 < jj + 1) = true := by simp
  simp only [mergePrev, h1, h2, Bool.true_and, Nat.add_sub_cancel,
    List.getD_cons_succ]
  split
  · rw [List.set_cons_succ, List.eraseIdx_cons_succ]
  · rfl

theorem delMerge_cons (a : KRange) (rest : List KRange) (k : Int) (jj : Nat) :
    delMerge (a :: rest) k (jj + 1 + 1) = a :: delMerge rest k (jj + 1) := by
  rw [delMerge, List.insertIdx_succ_cons, mergeNext_cons, mergePrev_cons, delMerge]

theorem mergePrev_zero (f : List KRange) : mergePrev f 0 = f := by
  simp [mergePrev]

theorem mergeNext_single (x : KRange) : mergeNext [x] 0 = [x] := by
  simp [mergeNext]

theorem mergeNext_zero (x y : KRange) (t : List KRange) :
    mergeNext (x :: y :: t) 0 =
      if intEqUB y.1 (ubSucc x.2) then (x.1, y.2) :: t else x :: y :: t := by
  rw [mergeNext]
  by_cases hc : intEqUB y.1 (ubSucc x.2) = true
  · rw [if_pos hc]
    rw [if_pos (show (decide (0 < (x :: y :: t).length - 1) &&
        intEqUB ((x :: y :: t).getD (0 + 1) dfltR).1
          (ubSucc ((x :: y :: t).getD 0 dfltR).2)) = true
      by simp [hc])]
    rfl
  · rw [if_neg hc]
    rw [if_neg (show ¬ (decide (0 < (x :: y :: t).length - 1) &&
        intEqUB ((x :: y :: t).getD (0 + 1) dfltR).1
          (ubSucc ((x :: y :: t).getD 0 dfltR).2)) = true
      by simp [hc])]

theorem mergePrev_one (x y : KRange) (t : List KRange) :
    mergePrev (x :: y :: t) 1 = if ubEqInt x.2 (y.1 - 1) then (x.1, y.2) :: t
      else x :: y :: t := by
  rw [mergePrev]
  by_cases hc : ubEqInt x.2 (y.1 - 1) = true
  · rw [if_pos hc]
    rw [if_pos (show (decide (0 < 1) && ubEqInt ((x :: y :: t).getD (1 - 1) dfltR).2
        (((x :: y :: t).getD 1 dfltR).1 - 1)) = true
      by simp [hc])]
    rfl
  · rw [if_neg hc]
    rw [if_neg (show ¬ (decide (0 < 1) && ubEqInt ((x :: y :: t).getD (1 - 1) dfltR).2
        (((x :: y :: t).getD 1 dfltR).1 - 1)) = true
      by simp [hc])]

theorem is_used_cons_shift (a : KRange) (t : List KRange) (n : Nat) (k : Int) :
    is_used (a :: t) (n + 1 + 1) k = is_used t (n + 1) k := by
  rw [is_used_succ, is_used_succ, List.getD_cons_succ, List.getD_cons_succ]

theorem delMerge_inv : ∀ (i : Nat) (l : List KRange) (b k : Int),
    invFrom b l = true → b ≤ k → is_used l i k = true →
    invFrom b (delMerge l k i) = true
  | 0, [], b, k, hinv, _, _ => by simp [invFrom] at hinv
  | 0, (lo, hi) :: rest, b, k, hinv, hbk, hu => by
    rw [is_used_zero, List.getD_cons_zero, decide_eq_true_eq] at hu
    rw [delMerge, List.insertIdx_zero, mergeNext_zero]
    by_cases hlo : intEqUB lo (ubSucc (k, UB.fin k).2) = true
    · rw [if_pos hlo, mergePrev_zero]
      simp only [ubSucc, intEqUB, beq_iff_eq] at hlo
      cases hi with
      | inf =>
        simp only [invFrom, Bool.and_eq_true, decide_eq_true_eq,
          List.isEmpty_iff] at hinv ⊢
        exact ⟨hbk, hinv.2⟩
      | fin hh =>
        simp only [invFrom, Bool.and_eq_true, decide_eq_true_eq] at hinv ⊢
        exact ⟨⟨hbk, by omega⟩, hinv.2⟩
    · rw [if_neg hlo, mergePrev_zero]
      simp only [ubSucc, intEqUB, beq_iff_eq] at hlo
      simp only [invFrom, Bool.and_eq_true, decide_eq_true_eq]
      refine ⟨⟨hbk, le_refl k⟩, ?_⟩
      exact invFrom_of_le_head hinv (by omega)
  | 1, [], b, k, hinv, _, _ => by simp [invFrom] at hinv
  | 1, (lo, UB.inf) :: rest, b, k, hinv, hbk, hu => by
    exfalso
    simp only [invFrom, Bool.and_eq_true, decide_eq_true_eq,
      List.isEmpty_iff] at hinv
    rw [show (1 : Nat) = 0 + 1 from rfl, is_used_succ, List.getD_cons_zero] at hu
    simp [ubLtKey] at hu
  | 1, (lo, UB.fin h0) :: rest, b, k, hinv, hbk, hu => by
    simp only [invFrom, Bool.and_eq_true, decide_eq_true_eq] at hinv
    match rest, hinv with
    | (lo1, hi1) :: rest2, ⟨⟨hblo, hloh0⟩, hinv2⟩ =>
      rw [show (1 : Nat) = 0 + 1 from rfl, is_used_succ, List.getD_cons_zero,
        List.getD_cons_succ, List.getD_cons_zero, Bool.and_eq_true,
        decide_eq_true_eq] at hu
      simp only [ubLtKey, decide_eq_true_eq] at hu
      obtain ⟨hh0k, hklo1⟩ := hu
      have hins : ((lo, UB.fin h0) :: (lo1, hi1) :: rest2).insertIdx 1
          (k, UB.fin k) = (lo, UB.fin h0) :: (k, UB.fin k) :: (lo1, hi1) :: rest2 := rfl
      have e1 : mergeNext ((lo, UB.fin h0) :: (k, UB.fin k) :: (lo1, hi1) :: rest2) 1
          = (lo, UB.fin h0) :: mergeNext ((k, UB.fin k) :: (lo1, hi1) :: rest2) 0 :=
        mergeNext_cons _ _ 0
      rw [delMerge, hins, e1, mergeNext_zero]
      by_cases h1 : intEqUB lo1 (ubSucc (k, UB.fin k).2) = true
      · rw [if_pos h1]
        simp only [ubSucc, intEqUB, beq_iff_eq] at h1
        rw [mergePrev_one]
        by_cases h2 : ubEqInt (lo, UB.fin h0).2 (((k : Int), hi1).1 - 1) = true
        · rw [if_pos h2]
          simp only [ubEqInt, beq_iff_eq] at h2
          cases hi1 with
          | inf =>
            simp only [invFrom, Bool.and_eq_true, decide_eq_true_eq,
              List.isEmpty_iff] at hinv2 ⊢
            exact ⟨hblo, hinv2.2⟩
          | fin hh1 =>
            simp only [invFrom, Bool.and_eq_true, decide_eq_true_eq] at hinv2 ⊢
            exact ⟨⟨hblo, by omega⟩, hinv2.2⟩
        · rw [if_neg h2]
          simp only [ubEqInt, beq_iff_eq] at h2
          cases hi1 with
          | inf =>
            simp only [invFrom, Bool.and_eq_true, decide_eq_true_eq,
              List.isEmpty_iff] at hinv2 ⊢
            exact ⟨⟨hblo, hloh0⟩, by omega, hinv2.2⟩
          | fin hh1 =>
            simp only [invFrom, Bool.and_eq_true, decide_eq_true_eq] at hinv2 ⊢
            exact ⟨⟨hblo, hloh0⟩, ⟨by omega, by omega⟩, hinv2.2⟩
      · rw [if_neg h1]
        simp only [ubSucc, intEqUB, beq_iff_eq] at h1
        have e2 : mergePrev ((lo, UB.fin h0) :: (k, UB.fin k) :: (lo1, hi1) :: rest2) 1
            = if ubEqInt (lo, UB.fin h0).2 (((k : Int), UB.fin k).1 - 1)
              then ((lo : Int), UB.fin k) :: (lo1, hi1) :: rest2
              else (lo, UB.fin h0) :: (k, UB.fin k) :: (lo1, hi1) :: rest2 :=
          mergePrev_one _ _ _
        rw [e2]
        by_cases h2 : ubEqInt (lo, UB.fin h0).2 (((k : Int), UB.fin k).1 - 1) = true
        · rw [if_pos h2]
          simp only [ubEqInt, beq_iff_eq] at h2
          simp only [invFrom, Bool.and_eq_true, decide_eq_true_eq]
          refine ⟨⟨hblo, by omega⟩, ?_⟩
          exact invFrom_of_le_head hinv2 (by omega)
        · rw [if_neg h2]
          simp only [ubEqInt, beq_iff_eq] at h2
          simp only [invFrom, Bool.and_eq_true, decide_eq_true_eq]
          refine ⟨⟨hblo, hloh0⟩, ⟨by omega, le_refl k⟩, ?_⟩
          exact invFrom_of_le_head hinv2 (by omega)
  | (jj + 2), [], b, k, hinv, _, _ => by simp [invFrom] at hinv
  | (jj + 2), (lo, UB.inf) :: rest, b, k, hinv, hbk, hu => by
    exfalso
    simp only [invFrom, Bool.and_eq_true, decide_eq_true_eq,
      List.isEmpty_iff] at hinv
    rw [is_used_cons_shift, is_used_succ, hinv.2] at hu
    simp [List.getD, dfltR, ubLtKey] at hu
  | (jj + 2), (lo, UB.fin h0) :: rest, b, k, hinv, hbk, hu => by
    simp only [invFrom, Bool.and_eq_true, decide_eq_true_eq] at hinv
    rw [is_used_cons_shift] at hu
    have hbound : h0 + 2 < k := by
      rw [is_used_succ, Bool.and_eq_true] at hu
      exact ubLtKey_bound hinv.2 hu.1
    have e : delMerge ((lo, UB.fin h0) :: rest) k (jj + 2)
        = (lo, UB.fin h0) :: delMerge rest k (jj + 1) := delMerge_cons _ _ _ jj
    rw [e]
    simp only [invFrom, Bool.and_eq_true, decide_eq_true_eq]
    exact ⟨⟨hinv.1.1, hinv.1.2⟩,
      delMerge_inv (jj + 1) rest (h0 + 2) k hinv.2 (by omega) hu⟩

theorem releaseRun_inv {st : Keypool} {k : Int} {seed : Nat} (hinv : st.Inv) :
    ((st.releaseRun k seed).2).Inv := by
  rw [Keypool.releaseRun]
  cases hf : st.find k seed with
  | error e => exact hinv
  | ok i =>
    obtain ⟨hge, hu⟩ := find_ok_sound hf
    exact delMerge_inv i st.free st.start k hinv hge hu

theorem step_inv {st : Keypool} {op : Op} (hinv : st.Inv) : (st.step op).Inv := by
  cases op with
  | alloc =>
    rw [Keypool.step]
    cases hn : st.next with
    | none => exact hinv
    | some p =>
      obtain ⟨k, st2⟩ := p
      exact next_inv hinv hn
  | release k s => exact releaseRun_inv hinv

theorem run_inv {st : Keypool} (hinv : st.Inv) :
    ∀ ops : List Op, (st.run ops).Inv := by
  intro ops
  induction ops generalizing st with
  | nil => exact hinv
  | cons op rest ih => exact ih (step_inv hinv)

theorem ofStart_inv (start : Int) : (Keypool.ofStart start).Inv := by
  unfold Keypool.Inv Keypool.ofStart
  simp [invFrom]

theorem invFrom_chain : ∀ {l : List KRange} {b : Int}, invFrom b l = true →
    List.Chain' (fun r s : KRange =>
      r.1 < s.1 ∧ ∃ h, r.2 = UB.fin h ∧ h + 2 ≤ s.1) l
  | [], b, _ => List.chain'_nil
  | [(lo, hi)], b, _ => List.chain'_singleton _
  | (lo, hi) :: (lo1, hi1) :: r2, b, hinv => by
    cases hi with
    | inf =>
      simp only [invFrom, Bool.and_eq_true, decide_eq_true_eq,
        List.isEmpty_iff] at hinv
      exact absurd hinv.2 (by simp)
    | fin hh =>
      simp only [invFrom, Bool.and_eq_true, decide_eq_true_eq] at hinv
      have hlo1 : hh + 2 ≤ lo1 := by
        have h2 := hinv.2
        cases hi1 <;>
          simp only [invFrom, Bool.and_eq_true, decide_eq_true_eq] at h2 <;>
          omega
      exact List.chain'_cons.mpr ⟨⟨by omega, hh, rfl, hlo1⟩, invFrom_chain hinv.2⟩

theorem invFrom_getLast : ∀ {l : List KRange} {b : Int} {r : KRange},
    invFrom b l = true → l.getLast? = some r → r.2 = UB.inf
  | [], b, r, hinv, _ => by simp [invFrom] at hinv
  | [(lo, hi)], b, r, hinv, hl => by
    cases hi with
    | inf => cases hl; rfl
    | fin hh => simp [invFrom] at hinv
  | (lo, hi) :: (lo1, hi1) :: r2, b, r, hinv, hl => by
    cases hi with
    | inf =>
      simp only [invFrom, Bool.and_eq_true, decide_eq_true_eq,
        List.isEmpty_iff] at hinv
      exact absurd hinv.2 (by simp)
    | fin hh =>
      simp only [invFrom, Bool.and_eq_true, decide_eq_true_eq] at hinv
      rw [List.getLast?_cons_cons] at hl
      exact invFrom_getLast hinv.2 hl

theorem invFrom_mem_bounds : ∀ {l : List KRange} {b : Int},
    invFrom b l = true → ∀ r ∈ l, b ≤ r.1 ∧ ∀ h, r.2 = UB.fin h → r.1 ≤ h
  | [], b, _, r, hr => absurd hr (by simp)
  | (lo, UB.inf) :: rest, b, hinv, r, hr => by
    simp only [invFrom, Bool.and_eq_true, decide_eq_true_eq,
      List.isEmpty_iff] at hinv
    rcases List.mem_cons.mp hr with rfl | hr2
    · exact ⟨hinv.1, fun h hf => by simp at hf⟩
    · rw [hinv.2] at hr2; exact absurd hr2 (by simp)
  | (lo, UB.fin hh) :: rest, b, hinv, r, hr => by
    simp only [invFrom, Bool.and_eq_true, decide_eq_true_eq] at hinv
    rcases List.mem_cons.mp hr with rfl | hr2
    · refine ⟨hinv.1.1, fun h hf => ?_⟩
      simp only [UB.fin.injEq] at hf
      omega
    · have := invFrom_mem_bounds hinv.2 r hr2
      exact ⟨by omega, this.2⟩

theorem isFree_head {lo : Int} {hi : UB} {rest : List KRange} {b : Int}
    (hinv : invFrom b ((lo, hi) :: rest) = true) :
    isFree ((lo, hi) :: rest) lo = true := by
  simp only [isFree, List.any_cons, Bool.or_eq_true, Bool.and_eq_true,
    decide_eq_true_eq]
  left
  refine ⟨le_refl lo, ?_⟩
  cases hi with
  | inf => rfl
  | fin hh =>
    simp only [invFrom, Bool.and_eq_true, decide_eq_true_eq] at hinv
    simp only [keyLeUB, decide_eq_true_eq]
    exact hinv.1.2

theorem isFree_head_le {lo : Int} {hi : UB} {rest : List KRange} {b m : Int}
    (hinv : invFrom b ((lo, hi) :: rest) = true)
    (hm : isFree ((lo, hi) :: rest) m = true) : lo ≤ m :=
  isFree_ge (invFrom_of_le_head hinv (le_refl lo)) hm

theorem next_removed {st : Keypool} {k : Int} {st2 : Keypool}
    (hinv : st.Inv) (h : st.next = some (k, st2)) :
    isFree st.free k = true ∧ isFree st2.free k = false ∧
    ∃ hi rest, st.free = (k, hi) :: rest ∧
      st2.free = if intEqUB k hi then rest else (k + 1, hi) :: rest := by
  unfold Keypool.Inv at hinv
  match hfree : st.free with
  | [] => rw [Keypool.next, hfree] at h; exact absurd h (by simp)
  | (lo, hi) :: rest =>
    rw [hfree] at hinv
    have hn := next_eq_some hfree
    rw [h] at hn
    simp only [Option.some.injEq, Prod.mk.injEq] at hn
    obtain ⟨rfl, rfl⟩ := hn
    refine ⟨isFree_head hinv, ?_, hi, rest, rfl, rfl⟩
    by_cases hc : intEqUB k hi = true
    · rw [if_pos hc]
      cases hi with
      | inf => exact absurd hc (by simp [intEqUB])
      | fin hh =>
        simp only [intEqUB, beq_iff_eq] at hc
        simp only [invFrom, Bool.and_eq_true, decide_eq_true_eq] at hinv
        exact isFree_eq_false_of_lt hinv.2 (by omega)
    · rw [if_neg hc]
      show isFree ((k + 1, hi) :: rest) k = false
      simp only [isFree, List.any_cons, Bool.or_eq_false_iff,
        Bool.and_eq_false_iff]
      constructor
      · left; simp only [decide_eq_false_iff_not]; omega
      · cases hi with
        | inf =>
          simp only [invFrom, Bool.and_eq_true, decide_eq_true_eq,
            List.isEmpty_iff] at hinv
          rw [hinv.2]; rfl
        | fin hh =>
          simp only [invFrom, Bool.and_eq_true, decide_eq_true_eq] at hinv
          exact isFree_eq_false_of_lt hinv.2 (by omega)

theorem next_head_lt {st : Keypool} {k : Int} {st2 : Keypool}
    (hinv : st.Inv) (h : st.next = some (k, st2)) :
    ∀ lo2 hi2 rest2, st2.free = (lo2, hi2) :: rest2 → k < lo2 := by
  intro lo2 hi2 rest2 h2
  obtain ⟨-, -, hi, rest, hfree, hst2⟩ := next_removed hinv h
  unfold Keypool.Inv at hinv
  rw [hfree] at hinv
  by_cases hc : intEqUB k hi = true
  · rw [if_pos hc] at hst2
    cases hi with
    | inf => exact absurd hc (by simp [intEqUB])
    | fin hh =>
      simp only [intEqUB, beq_iff_eq] at hc
      simp only [invFrom, Bool.and_eq_true, decide_eq_true_eq] at hinv
      have := invFrom_mem_bounds hinv.2 (lo2, hi2)
        (by rw [← hst2, h2]; exact List.mem_cons_self _ _)
      have hb := this.1
      omega
  · rw [if_neg hc] at hst2
    rw [h2] at hst2
    have hl : lo2 = k + 1 := by
      simp only [List.cons.injEq, Prod.mk.injEq] at hst2
      exact hst2.1.1
    omega

theorem allocs_head_le {n : Nat} : ∀ {st : Keypool}, st.Inv →
    ∀ x ∈ allocs st n, ∀ lo hi rest, st.free = (lo, hi) :: rest → lo ≤ x := by
  induction n with
  | zero => intro st _ x hx; simp [allocs] at hx
  | succ m ih =>
    intro st hinv x hx lo hi rest hfree
    rw [allocs, next_eq_some hfree] at hx
    rcases List.mem_cons.mp hx with rfl | hx2
    · exact le_refl x
    · have hn := next_eq_some hfree
      have h2inv := next_inv hinv hn
      obtain ⟨-, -, hi0, rest0, hf0, hst2⟩ := next_removed hinv hn
      have hlt := next_head_lt hinv hn
      match h2 : (if intEqUB lo hi then rest else (lo + 1, hi) :: rest) with
      | [] =>
        exfalso
        have := Inv_free_ne_nil h2inv
        simp only [h2] at this
        exact this rfl
      | (lo2, hi2) :: rest2 =>
        have hle := ih h2inv x hx2 lo2 hi2 rest2 (by rw [h2])
        have hk := hlt lo2 hi2 rest2 (by rw [h2])
        omega

theorem allocs_pairwise {n : Nat} : ∀ {st : Keypool}, st.Inv →
    (allocs st n).length = n ∧ List.Pairwise (· < ·) (allocs st n) := by
  induction n with
  | zero => intro st _; simp [allocs]
  | succ m ih =>
    intro st hinv
    obtain ⟨lo, hi, rest, hfree⟩ :
        ∃ lo hi rest, st.free = (lo, hi) :: rest := by
      match hf : st.free with
      | [] => exact absurd hf (Inv_free_ne_nil hinv)
      | (lo, hi) :: rest => exact ⟨lo, hi, rest, rfl⟩
    have hn := next_eq_some hfree
    have h2inv := next_inv hinv hn
    rw [allocs, hn]
    obtain ⟨hlen, hpw⟩ := ih h2inv
    refine ⟨by simp [hlen], List.pairwise_cons.mpr ⟨?_, hpw⟩⟩
    intro x hx
    have hlt := next_head_lt hinv hn
    match h2 : (if intEqUB lo hi then rest else (lo + 1, hi) :: rest) with
    | [] =>
      exfalso
      have := Inv_free_ne_nil h2inv
      simp only [h2] at this
      exact this rfl
    | (lo2, hi2) :: rest2 =>
      have hle := allocs_head_le h2inv x hx lo2 hi2 rest2 (by rw [h2])
      have hk := hlt lo2 hi2 rest2 (by rw [h2])
      omega

theorem insertIdx_chain : ∀ (i : Nat) (l : List KRange) (b k : Int),
    invFrom b l = true → is_used l i k = true →
    List.Chain' (fun r s : KRange => r.1 < s.1) (l.insertIdx i (k, UB.fin k))
  | 0, [], b, k, hinv, _ => by simp [invFrom] at hinv
  | 0, (lo, hi) :: rest, b, k, hinv, hu => by
    rw [is_used_zero, List.getD_cons_zero, decide_eq_true_eq] at hu
    rw [List.insertIdx_zero]
    refine List.chain'_cons.mpr ⟨hu, ?_⟩
    exact (invFrom_chain hinv).imp (fun a b h => h.1)
  | (n + 1), [], b, k, hinv, _ => by simp [invFrom] at hinv
  | (n + 1), (lo, UB.inf) :: rest, b, k, hinv, hu => by
    exfalso
    simp only [invFrom, Bool.and_eq_true, decide_eq_true_eq,
      List.isEmpty_iff] at hinv
    rw [is_used_succ, Bool.and_eq_true] at hu
    have h1 := hu.1
    cases n with
    | zero => rw [List.getD_cons_zero] at h1; simp [ubLtKey] at h1
    | succ m =>
      rw [List.getD_cons_succ, hinv.2] at h1
      simp [List.getD, dfltR, ubLtKey] at h1
  | (n + 1), (lo, UB.fin h0) :: rest, b, k, hinv, hu => by
    simp only [invFrom, Bool.and_eq_true, decide_eq_true_eq] at hinv
    match rest, hinv with
    | (lo1, hi1) :: rest2, ⟨⟨hblo, hloh0⟩, hinv2⟩ =>
      have hlo1 : h0 + 2 ≤ lo1 := by
        have h2 := hinv2
        cases hi1 <;>
          simp only [invFrom, Bool.and_eq_true, decide_eq_true_eq] at h2 <;>
          omega
      cases n with
      | zero =>
        rw [is_used_succ, Bool.and_eq_true, List.getD_cons_zero,
          List.getD_cons_succ, List.getD_cons_zero, decide_eq_true_eq] at hu
        simp only [ubLtKey, decide_eq_true_eq] at hu
        have hins : ((lo, UB.fin h0) :: (lo1, hi1) :: rest2).insertIdx 1
            (k, UB.fin k)
            = (lo, UB.fin h0) :: (k, UB.fin k) :: (lo1, hi1) :: rest2 := rfl
        rw [hins]
        refine List.chain'_cons.mpr ⟨by omega, ?_⟩
        refine List.chain'_cons.mpr ⟨by omega, ?_⟩
        exact (invFrom_chain hinv2).imp (fun a b h => h.1)
      | succ m =>
        rw [is_used_cons_shift] at hu
        have hins : ((lo, UB.fin h0) :: (lo1, hi1) :: rest2).insertIdx
            (m + 1 + 1) (k, UB.fin k)
            = (lo, UB.fin h0) :: (((lo1, hi1) :: rest2).insertIdx (m + 1)
              (k, UB.fin k)) := List.insertIdx_succ_cons _ _ _ _
        rw [hins]
        have htail := insertIdx_chain (m + 1) ((lo1, hi1) :: rest2) (h0 + 2) k
          hinv2 hu
        have hhd : (((lo1, hi1) :: rest2).insertIdx (m + 1) (k, UB.fin k))
            = (lo1, hi1) :: (rest2.insertIdx m (k, UB.fin k)) :=
          List.insertIdx_succ_cons _ _ _ _
        rw [hhd] at htail ⊢
        exact List.chain'_cons.mpr ⟨by omega, htail⟩

theorem find_len_one (st : Keypool) (k : Int) (s : Nat)
    (hlen : st.free.length = 1) : st.find k s = st.find k 0 := by
  simp only [Keypool.find, hlen, Nat.mod_one, Nat.zero_mod]

theorem step_start (st : Keypool) (op : Op) : (st.step op).start = st.start := by
  cases op with
  | alloc =>
    rw [Keypool.step]
    match hf : st.free with
    | [] => rw [Keypool.next, hf]
    | (lo, hi) :: rest =>
      rw [next_eq_some hf]
  | release k s =>
    rw [Keypool.step, Keypool.releaseRun]
    cases st.find k s <;> rfl

theorem run_start (st : Keypool) (ops : List Op) : (st.run ops).start = st.start := by
  induction ops generalizing st with
  | nil => rfl
  | cons op rest ih => rw [Keypool.run, ih, step_start]

theorem releaseRun_err_frame {st : Keypool} {k : Int} {seed : Nat} {e : FindErr}
    (h : (st.releaseRun k seed).1 = Except.error e) :
    st.releaseRun k seed = (Except.error e, st) := by
  rw [Keypool.releaseRun] at h ⊢
  cases hf : st.find k seed with
  | error e2 =>
    rw [hf] at h
    simp only at h
    cases h
    rfl
  | ok i =>
    rw [hf] at h
    exact absurd h (by simp)

-- sanity checks on concrete inputs (the scenario of the spec)
example : (Keypool.ofStart 0).next = some (0, ⟨0, [(1, UB.inf)]⟩) := by decide
example : (⟨0, [(3, UB.inf)]⟩ : Keypool).releaseRun 0 5 =
    (Except.ok (), ⟨0, [(0, UB.fin 0), (3, UB.inf)]⟩) := rfl
example : (⟨0, [(0, UB.fin 0), (3, UB.inf)]⟩ : Keypool).next =
    some (0, ⟨0, [(3, UB.inf)]⟩) := by decide
example : findSteps 1 = 2 := by decide
example : findSteps 5 = 3 := by decide

/-- C1 (counterexample): on the invariant-satisfying free list
[[0,0],[2,2],[4,4],[6,6],[8,infinity]] the key 7 is in use (it lies in no
free range and is at least start = 0), yet _find with pivot 0 exhausts its
probe budget of findSteps 5 = 3 iterations and raises KeyError instead of
returning the correct index 4, refuting the claim that _find returns the
bracketing index for every outcome of the random pivot choice. -/
theorem C1_find_degenerates :
    invFrom 0 [(0, UB.fin 0), (2, UB.fin 2), (4, UB.fin 4), (6, UB.fin 6),
      (8, UB.inf)] = true ∧
    isFree [(0, UB.fin 0), (2, UB.fin 2), (4, UB.fin 4), (6, UB.fin 6),
      (8, UB.inf)] 7 = false ∧
    (0 : Int) ≤ 7 ∧
    is_used [(0, UB.fin 0), (2, UB.fin 2), (4, UB.fin 4), (6, UB.fin 6),
      (8, UB.inf)] 4 7 = true ∧
    (⟨0, [(0, UB.fin 0), (2, UB.fin 2), (4, UB.fin 4), (6, UB.fin 6),
      (8, UB.inf)]⟩ : Keypool).find 7 0 = Except.error FindErr.keyNotInUse :=
  ⟨by decide, by decide, by decide, by decide, rfl⟩

/-- C1 (amended): for every invariant-satisfying state, every in-use key
k >= start, and every pivot outcome, _find either raises KeyError or returns
the index i with k strictly between range i-1's upper bound and range i's
lower bound (k below range 0's lower bound when i = 0); it never raises
ValueError and never returns a wrong index, but it may raise KeyError even
though k is in use. -/
theorem C1_find_ok_or_keyerror (st : Keypool) (k : Int) (seed : Nat)
    (hinv : st.Inv) (hge : st.start ≤ k) (hfree : isFree st.free k = false) :
    st.find k seed = Except.error FindErr.keyNotInUse ∨
    ∃ i, st.find k seed = Except.ok i ∧ i < st.free.length ∧
      (i = 0 → k < (st.free.getD 0 dfltR).1) ∧
      (0 < i → ∃ h, (st.free.getD (i - 1) dfltR).2 = UB.fin h ∧ h < k ∧
        k < (st.free.getD i dfltR).1) := by
  rw [Keypool.find]
  rw [if_neg (show ¬ (decide (k < st.start) || intGtInf k) = true by
    simp [intGtInf]; omega)]
  cases hl : findLoop st.free k (seed % st.free.length)
      (findSteps st.free.length) with
  | none => exact Or.inl rfl
  | some i =>
    right
    have hu := findLoop_sound hl
    refine ⟨i, rfl, is_used_lt_length hinv hu, ?_, ?_⟩
    · intro hi0
      subst hi0
      rw [is_used_zero, decide_eq_true_eq] at hu
      exact hu
    · intro hipos
      obtain ⟨n, rfl⟩ : ∃ n, i = n + 1 := ⟨i - 1, by omega⟩
      rw [is_used_succ, Bool.and_eq_true, decide_eq_true_eq] at hu
      obtain ⟨m, hm, hmk⟩ := ubLtKey_eq_true_iff.mp hu.1
      exact ⟨m, by rw [Nat.add_sub_cancel]; exact hm, hmk, hu.2⟩

/-- Witness for C1: on the state with free list [[1,infinity]] and start 0
the key 0 is in use, and _find at pivot 0 returns the certified index. -/
theorem C1_witness :
    (⟨0, [(1, UB.inf)]⟩ : Keypool).Inv ∧
    ((0 : Int) ≤ 0) ∧
    isFree [((1 : Int), UB.inf)] 0 = false ∧
    ((⟨0, [(1, UB.inf)]⟩ : Keypool).find 0 0 = Except.error FindErr.keyNotInUse ∨
    ∃ i, (⟨0, [(1, UB.inf)]⟩ : Keypool).find 0 0 = Except.ok i ∧
      i < ([((1 : Int), UB.inf)] : List KRange).length ∧
      (i = 0 → 0 < (([((1 : Int), UB.inf)] : List KRange).getD 0 dfltR).1) ∧
      (0 < i → ∃ h, (([((1 : Int), UB.inf)] : List KRange).getD (i - 1) dfltR).2
          = UB.fin h ∧ h < 0 ∧
        0 < (([((1 : Int), UB.inf)] : List KRange).getD i dfltR).1)) :=
  ⟨rfl, by decide, by decide,
    C1_find_ok_or_keyerror ⟨0, [(1, UB.inf)]⟩ 0 0 rfl (by decide) (by decide)⟩

/-- C2: starting from the initial single range [start, infinity], after any
sequence of allocate and release operations (a release whose _find raises
leaves the state unchanged) the free list is nonempty, sorted strictly
ascending by lower bound, pairwise disjoint and non-adjacent (each non-final
range has a finite upper bound h with h + 2 at most the next lower bound),
its final range carries the infinity sentinel, and every bound is a finite
integer at least start (lower bounds at least start, each finite upper bound
at least its lower bound). -/
theorem C2_free_list_invariant (start : Int) (ops : List Op) :
    ((Keypool.ofStart start).run ops).free ≠ [] ∧
    List.Chain' (fun r s : KRange => r.1 < s.1 ∧ ∃ h, r.2 = UB.fin h ∧
      h + 2 ≤ s.1) ((Keypool.ofStart start).run ops).free ∧
    (∀ r, ((Keypool.ofStart start).run ops).free.getLast? = some r →
      r.2 = UB.inf) ∧
    (∀ r ∈ ((Keypool.ofStart start).run ops).free,
      start ≤ r.1 ∧ ∀ h, r.2 = UB.fin h → r.1 ≤ h) := by
  have hinv : ((Keypool.ofStart start).run ops).Inv :=
    run_inv (ofStart_inv start) ops
  have hne := Inv_free_ne_nil hinv
  unfold Keypool.Inv at hinv
  rw [run_start] at hinv
  exact ⟨hne, invFrom_chain hinv, fun r hr => invFrom_getLast hinv hr,
    invFrom_mem_bounds hinv⟩

/-- C3: from a fresh allocator with start 0, three allocations return 0, 1, 2;
releasing 0 yields the free list [[0,0],[3,infinity]]; the next allocation
returns 0; releasing 1 and allocating again returns 1 — for every outcome of
the random pivot choices (the free list has length 1 at both releases, so the
pivot is forced to 0 whatever the seed). -/
theorem C3_scenario (s1 s2 : Nat) :
    (Keypool.ofStart 0).next = some (0, ⟨0, [(1, UB.inf)]⟩) ∧
    (⟨0, [(1, UB.inf)]⟩ : Keypool).next = some (1, ⟨0, [(2, UB.inf)]⟩) ∧
    (⟨0, [(2, UB.inf)]⟩ : Keypool).next = some (2, ⟨0, [(3, UB.inf)]⟩) ∧
    (⟨0, [(3, UB.inf)]⟩ : Keypool).releaseRun 0 s1 =
      (Except.ok (), ⟨0, [(0, UB.fin 0), (3, UB.inf)]⟩) ∧
    (⟨0, [(0, UB.fin 0), (3, UB.inf)]⟩ : Keypool).next =
      some (0, ⟨0, [(3, UB.inf)]⟩) ∧
    (⟨0, [(3, UB.inf)]⟩ : Keypool).releaseRun 1 s2 =
      (Except.ok (), ⟨0, [(1, UB.fin 1), (3, UB.inf)]⟩) ∧
    (⟨0, [(1, UB.fin 1), (3, UB.inf)]⟩ : Keypool).next =
      some (1, ⟨0, [(3, UB.inf)]⟩) := by
  refine ⟨rfl, rfl, rfl, ?_, rfl, ?_, rfl⟩
  · rw [Keypool.releaseRun, find_len_one ⟨0, [(3, UB.inf)]⟩ 0 s1 rfl]
    rfl
  · rw [Keypool.releaseRun, find_len_one ⟨0, [(3, UB.inf)]⟩ 1 s2 rfl]
    rfl

/-- C4: in every invariant-satisfying state, allocate returns the lower bound
of the first free range, which is the lowest currently-unused key; afterwards
that key is no longer free, the range is deleted when its two bounds are the
equal finite integer and otherwise its lower bound is incremented, and the
allocation never fails. -/
theorem C4_allocate (st : Keypool) (hinv : st.Inv) :
    ∃ k st2, st.next = some (k, st2) ∧
      isFree st.free k = true ∧
      (∀ m, isFree st.free m = true → k ≤ m) ∧
      isFree st2.free k = false ∧
      st2.start = st.start ∧
      ∃ hi rest, st.free = (k, hi) :: rest ∧
        st2.free = if intEqUB k hi then rest else (k + 1, hi) :: rest := by
  obtain ⟨lo, hi, rest, hf⟩ : ∃ lo hi rest, st.free = (lo, hi) :: rest := by
    match hfx : st.free with
    | [] => exact absurd hfx (Inv_free_ne_nil hinv)
    | (a, b) :: c => exact ⟨a, b, c, rfl⟩
  have hn := next_eq_some hf
  obtain ⟨hfr, hnot, hi0, rest0, hfeq, hst2⟩ := next_removed hinv hn
  refine ⟨lo, _, hn, hfr, ?_, hnot, rfl, hi0, rest0, hfeq, hst2⟩
  intro m hm
  have hinv2 : invFrom st.start ((lo, hi) :: rest) = true := by
    have hx := hinv; unfold Keypool.Inv at hx; rwa [hf] at hx
  rw [hf] at hm
  exact isFree_head_le hinv2 hm

/-- Witness for C4 at the fresh allocator with start 0. -/
theorem C4_witness :
    ∃ k st2, (Keypool.ofStart 0).next = some (k, st2) ∧
      isFree (Keypool.ofStart 0).free k = true ∧
      (∀ m, isFree (Keypool.ofStart 0).free m = true → k ≤ m) ∧
      isFree st2.free k = false ∧
      st2.start = (Keypool.ofStart 0).start ∧
      ∃ hi rest, (Keypool.ofStart 0).free = (k, hi) :: rest ∧
        st2.free = if intEqUB k hi then rest else (k + 1, hi) :: rest :=
  C4_allocate (Keypool.ofStart 0) rfl

/-- C5: releasing a key that lies inside a free range (and is at least start)
raises KeyError for every outcome of the random pivot choice, and the failed
call leaves the allocator state unchanged. -/
theorem C5_release_free_raises (st : Keypool) (k : Int) (seed : Nat)
    (hinv : st.Inv) (hge : st.start ≤ k) (hfree : isFree st.free k = true) :
    st.releaseRun k seed = (Except.error FindErr.keyNotInUse, st) := by
  rw [Keypool.releaseRun, find_free_err seed hinv hge hfree]

/-- Witness for C5: releasing 5 on the fresh allocator raises KeyError. -/
theorem C5_witness :
    (Keypool.ofStart 0).Inv ∧ ((0 : Int) ≤ 5) ∧
    isFree (Keypool.ofStart 0).free 5 = true ∧
    (Keypool.ofStart 0).releaseRun 5 0 =
      (Except.error FindErr.keyNotInUse, Keypool.ofStart 0) :=
  ⟨rfl, by decide, by decide, C5_release_free_raises _ 5 0 rfl (by decide) (by decide)⟩

/-- C6: a key below start is rejected with ValueError before any searching:
_find raises it for every pivot outcome and on any state whatsoever, and the
failed release leaves the allocator state unchanged.  (No integer key can
exceed the infinity sentinel: in Python 2 an int never compares greater than
the string sentinel, so the integer keys outside [start, infinity] are
exactly those below start.) -/
theorem C6_invalid_key (st : Keypool) (k : Int) (seed : Nat)
    (h : k < st.start) :
    st.find k seed = Except.error FindErr.invalidKey ∧
    st.releaseRun k seed = (Except.error FindErr.invalidKey, st) ∧
    intGtInf k = false := by
  refine ⟨find_invalid seed h, ?_, rfl⟩
  rw [Keypool.releaseRun, find_invalid seed h]

/-- Witness for C6: releasing -1 on the fresh allocator raises ValueError. -/
theorem C6_witness :
    ((-1 : Int) < (Keypool.ofStart 0).start) ∧
    (Keypool.ofStart 0).find (-1) 0 = Except.error FindErr.invalidKey ∧
    (Keypool.ofStart 0).releaseRun (-1) 0 =
      (Except.error FindErr.invalidKey, Keypool.ofStart 0) ∧
    intGtInf (-1) = false :=
  ⟨by decide, C6_invalid_key (Keypool.ofStart 0) (-1) 0 (by decide)⟩

/-- C7: n successive allocations with no intervening release return n
pairwise distinct keys. -/
theorem C7_allocs_distinct (st : Keypool) (n : Nat) (hinv : st.Inv) :
    (allocs st n).length = n ∧ (allocs st n).Nodup := by
  obtain ⟨hlen, hpw⟩ := allocs_pairwise hinv
  exact ⟨hlen, hpw.imp ne_of_lt⟩

/-- Witness for C7: three allocations on the fresh allocator. -/
theorem C7_witness :
    (allocs (Keypool.ofStart 0) 3).length = 3 ∧
    (allocs (Keypool.ofStart 0) 3).Nodup :=
  C7_allocs_distinct (Keypool.ofStart 0) 3 rfl

/-- C8: whenever _find returns an index i normally, i is a correct
certificate (i = 0 and the key is strictly below the first lower bound, or
range i-1's finite upper bound < key < range i's lower bound); consequently
the randomized search never reports a free key as in use, and inserting the
singleton [key, key] at i preserves the strict sort order of the free list. -/
theorem C8_returned_index_correct (st : Keypool) (k : Int) (seed i : Nat)
    (hinv : st.Inv) (hok : st.find k seed = Except.ok i) :
    i < st.free.length ∧
    (i = 0 → k < (st.free.getD 0 dfltR).1) ∧
    (0 < i → ∃ h, (st.free.getD (i - 1) dfltR).2 = UB.fin h ∧ h < k ∧
      k < (st.free.getD i dfltR).1) ∧
    isFree st.free k = false ∧
    List.Chain' (fun r s : KRange => r.1 < s.1)
      (st.free.insertIdx i (k, UB.fin k)) := by
  obtain ⟨hge, hu⟩ := find_ok_sound hok
  refine ⟨is_used_lt_length hinv hu, ?_, ?_,
    isFree_eq_false_of_used hinv hu, insertIdx_chain i st.free st.start k hinv hu⟩
  · intro hi0
    subst hi0
    rw [is_used_zero, decide_eq_true_eq] at hu
    exact hu
  · intro hipos
    obtain ⟨n, rfl⟩ : ∃ n, i = n + 1 := ⟨i - 1, by omega⟩
    rw [is_used_succ, Bool.and_eq_true, decide_eq_true_eq] at hu
    obtain ⟨m, hm, hmk⟩ := ubLtKey_eq_true_iff.mp hu.1
    exact ⟨m, by rw [Nat.add_sub_cancel]; exact hm, hmk, hu.2⟩

/-- Witness for C8: _find on the state with free list [[0,0],[2,infinity]]
locates key 1 at index 1. -/
theorem C8_witness :
    (1 : Nat) < ([((0 : Int), UB.fin 0), ((2 : Int), UB.inf)] : List KRange).length ∧
    ((1 : Nat) = 0 → (1 : Int) <
      (([((0 : Int), UB.fin 0), ((2 : Int), UB.inf)] : List KRange).getD 0 dfltR).1) ∧
    ((0 : Nat) < 1 → ∃ h, (([((0 : Int), UB.fin 0), ((2 : Int), UB.inf)] :
        List KRange).getD (1 - 1) dfltR).2 = UB.fin h ∧ h < 1 ∧
      (1 : Int) < (([((0 : Int), UB.fin 0), ((2 : Int), UB.inf)] :
        List KRange).getD 1 dfltR).1) ∧
    isFree [((0 : Int), UB.fin 0), ((2 : Int), UB.inf)] 1 = false ∧
    List.Chain' (fun r s : KRange => r.1 < s.1)
      (([((0 : Int), UB.fin 0), ((2 : Int), UB.inf)] : List KRange).insertIdx 1
        (1, UB.fin 1)) :=
  C8_returned_index_correct ⟨0, [(0, UB.fin 0), (2, UB.inf)]⟩ 1 0 1 rfl rfl

/-- C9 (counterexample): deleting the stored integer key 5 from a KeypoolDict
whose pool has 5 free (never allocated) raises KeyError from the release, and
the entry is NOT removed from the mapping — the exception propagates before
super().__delitem__ runs, refuting the claim that the entry is always removed
even when the release raises. -/
theorem C9_entry_not_removed_on_error :
    dictDelitem [EKey.intKey 5] (Keypool.ofStart 0)
      (DictArg.plain (EKey.intKey 5)) 0
      = (DelOutcome.err FindErr.keyNotInUse, [EKey.intKey 5],
        Keypool.ofStart 0) ∧
    EKey.intKey 5 ∈ [EKey.intKey 5] :=
  ⟨rfl, by decide⟩

/-- C9 (amended): deleting a key from a KeypoolDict first resolves a
DeferredKey to its cached integer; an integer key is then released back to
the pool, and an error from the release propagates to the caller with the
mapping and the pool left unchanged (the entry is removed only when no error
is raised); on a successful release of a present key the entry is removed and
the pool updated; a non-integer key bypasses the release entirely. -/
theorem C9_delete_behaviour (entries : List EKey) (pool : Keypool) (n : Int)
    (seed : Nat) :
    (dictDelitem entries pool (DictArg.handle (some n)) seed
      = dictDelitem entries pool (DictArg.plain (EKey.intKey n)) seed) ∧
    (∀ e, (pool.releaseRun n seed).1 = Except.error e →
      dictDelitem entries pool (DictArg.plain (EKey.intKey n)) seed
        = (DelOutcome.err e, entries, pool)) ∧
    ((pool.releaseRun n seed).1 = Except.ok () → EKey.intKey n ∈ entries →
      dictDelitem entries pool (DictArg.plain (EKey.intKey n)) seed
        = (DelOutcome.ok, entries.erase (EKey.intKey n),
          (pool.releaseRun n seed).2)) ∧
    (∀ s : String, dictDelitem entries pool (DictArg.plain (EKey.strKey s)) seed
      = if EKey.strKey s ∈ entries
        then (DelOutcome.ok, entries.erase (EKey.strKey s), pool)
        else (DelOutcome.errMissing, entries, pool)) := by
  refine ⟨rfl, ?_, ?_, ?_⟩
  · intro e he
    have hfr := releaseRun_err_frame he
    simp only [dictDelitem, hfr]
  · intro hok hmem
    match hrel : pool.releaseRun n seed with
    | (Except.error e, pool2) =>
      rw [hrel] at hok
      exact absurd hok (by simp)
    | (Except.ok u, pool2) =>
      simp only [dictDelitem, hrel, if_pos hmem]
  · intro s
    by_cases hmem : EKey.strKey s ∈ entries
    · simp only [dictDelitem, if_pos hmem]
    · simp only [dictDelitem, if_neg hmem]

/-- Witness for C9: a successful delete of the in-use key 0 removes the entry
and releases the key, merging the free list back to [[0,infinity]]. -/
theorem C9_witness :
    ((⟨0, [(1, UB.inf)]⟩ : Keypool).releaseRun 0 0).1 = Except.ok () ∧
    EKey.intKey 0 ∈ [EKey.intKey 0] ∧
    dictDelitem [EKey.intKey 0] ⟨0, [(1, UB.inf)]⟩
      (DictArg.plain (EKey.intKey 0)) 0
      = (DelOutcome.ok, ([EKey.intKey 0] : List EKey).erase (EKey.intKey 0),
        ((⟨0, [(1, UB.inf)]⟩ : Keypool).releaseRun 0 0).2) :=
  ⟨rfl, by decide,
    (C9_delete_behaviour [EKey.intKey 0] ⟨0, [(1, UB.inf)]⟩ 0 0).2.2.1
      rfl (by decide)⟩

/-- C10: comparing two DeferredKeys of which at least one is unresolved
returns not-equal, and the comparison has no side effect: __eq__ reads only
the cached _key attributes (never the resolving key property), so neither
handle becomes resolved and the pool's free list is untouched. -/
theorem C10_unresolved_never_equal (a b : DeferredKey) (pool : Keypool)
    (h : a.key = none ∨ b.key = none) :
    DeferredKey.eq a b = false ∧
    DeferredKey.eqRun a b pool = (false, a, b, pool) := by
  have he : DeferredKey.eq a b = false := by
    rcases h with h | h
    · simp [DeferredKey.eq, h]
    · cases ha : a.key with
      | none => simp [DeferredKey.eq, ha]
      | some x => simp [DeferredKey.eq, ha, h]
  exact ⟨he, by rw [DeferredKey.eqRun, he]⟩

/-- Witness for C10: two unresolved handles on the same pool compare
not-equal without any state change. -/
theorem C10_witness :
    DeferredKey.eq ⟨none, 0, true⟩ ⟨none, 0, true⟩ = false ∧
    DeferredKey.eqRun ⟨none, 0, true⟩ ⟨none, 0, true⟩ (Keypool.ofStart 0)
      = (false, ⟨none, 0, true⟩, ⟨none, 0, true⟩, Keypool.ofStart 0) :=
  C10_unresolved_never_equal ⟨none, 0, true⟩ ⟨none, 0, true⟩
    (Keypool.ofStart 0) (Or.inl rfl)
